import Mathlib

/-!
# Verification of `histogram-sampler` (`src/lib.rs`)

Shallow embedding of the crate `histogram-sampler`.  The Rust code keeps a
`BTreeMap<usize, (usize, usize)>` mapping the start offset of each cumulative
interval to `(first_id, count)`.  We model that map as an association list
sorted by strictly increasing key; `btInsert` mirrors `BTreeMap::insert`
(replacing the value when the key is already present) and `lookupLE` mirrors
`range((Unbounded, Included(sample))).next_back()`, i.e. the entry with the
greatest key `≤ sample`.

Machine integers (`usize`) become `Nat`; none of the claims concern overflow.
`ind_sample` consumes the uniform draw as an explicit argument and returns
`Except SampleError Nat`, with one error constructor per Rust panic site:
the `assert!(low < high)` inside `rand`'s `gen_range`, the `.unwrap()` on the
map lookup, and `%` by zero.
-/

namespace HistogramSampler

/-- A map entry: `(start_offset, first_id, count)`. -/
abbrev Entry := Nat × Nat × Nat

/-- `BTreeMap::insert` on an association list sorted by strictly increasing
key: place `(k, v)` before the first larger key, replacing an equal key. -/
def btInsert (k : Nat) (v : Nat × Nat) : List Entry → List Entry
  | [] => [(k, v)]
  | e :: rest =>
    if k < e.1 then (k, v) :: e :: rest
    else if k = e.1 then (k, v) :: rest
    else e :: btInsert k v rest

/-- `range((Unbounded, Included(d))).next_back()`: the last entry whose key is
`≤ d` (on a sorted list, the entry with the greatest key `≤ d`). -/
def lookupLE (d : Nat) : List Entry → Option Entry
  | [] => none
  | e :: rest =>
    match lookupLE d rest with
    | some r => some r
    | none => if e.1 ≤ d then some e else none

/-- The `Sampler` struct of `src/lib.rs`: the interval map, `next_id`
(the number of ids handed out) and `end` (the total weight). -/
structure Sampler where
  bins : List Entry
  next_id : Nat
  end_ : Nat
  deriving Repr, DecidableEq

/-- `Sampler::nvalues`: returns `self.next_id`. -/
def Sampler.nvalues (s : Sampler) : Nat :=
  s.next_id

/-- The `avg_bin_value` computed inside `Sampler::from_bins`:
`if bin == 0 { bin_width } else { 4 * bin }` (the code oversamples every
weight by a factor of 4 to avoid the fraction `bin_width / 4`). -/
def avg_bin_value (bin_width bin : Nat) : Nat :=
  if bin = 0 then bin_width else 4 * bin

/-- The loop body of `Sampler::from_bins`: for each `(bin, count)` with
`count ≠ 0`, insert `(start, (next_id, count))` into the map, then advance
`start += count * avg_bin_value` and `next_id += count`. -/
def fromBinsGo (bin_width : Nat) :
    List (Nat × Nat) → Nat → Nat → List Entry → Sampler
  | [], start, next_id, bins => ⟨bins, next_id, start⟩
  | (bin, count) :: rest, start, next_id, bins =>
    if count = 0 then fromBinsGo bin_width rest start next_id bins
    else
      fromBinsGo bin_width rest (start + count * avg_bin_value bin_width bin)
        (next_id + count) (btInsert start (next_id, count) bins)

/-- `Sampler::from_bins`: fold the histogram bins starting from
`start = 0`, `next_id = 0`, empty map. -/
def from_bins (iter : List (Nat × Nat)) (bin_width : Nat) : Sampler :=
  fromBinsGo bin_width iter 0 0 []

/-- The ways `ind_sample` can panic: the `assert!(low < high)` inside
`rand`'s `gen_range` (reached when `self.end == 0`), the `.unwrap()` on the
range lookup, and the remainder `sample % n` with `n == 0`. -/
inductive SampleError where
  | genRangeAssert
  | unwrapPanic
  | modZero
  deriving Repr, DecidableEq

deriving instance DecidableEq for Except

/-- `Sampler::ind_sample` with the uniform draw made explicit: the RNG call
`rng.gen_range(0, self.end)` panics when `self.end == 0` and otherwise
returns a caller-supplied `draw < self.end`; then the entry with the
greatest key `≤ draw` is looked up (`.unwrap()`), and the id is
`first_id + (draw % n)`. -/
def ind_sample (s : Sampler) (draw : Nat) : Except SampleError Nat :=
  if draw < s.end_ then
    match lookupLE draw s.bins with
    | none => .error .unwrapPanic
    | some (_, first_id, n) =>
      if n = 0 then .error .modZero
      else .ok (first_id + draw % n)
  else .error .genRangeAssert

/-- The sequence of ids produced by feeding a sequence of uniform draws to
`ind_sample` (the repeated-sampling loop of the crate's examples). -/
def sampleSeq (s : Sampler) (draws : List Nat) : List (Except SampleError Nat) :=
  draws.map (ind_sample s)

/-- Sum of the `count` fields of a histogram. -/
def countSum (bins : List (Nat × Nat)) : Nat :=
  (bins.map Prod.snd).sum

/-- Total weight of a histogram under the code's weights:
`Σ count * avg_bin_value` (bins with `count = 0` contribute nothing). -/
def weightSum (bin_width : Nat) (bins : List (Nat × Nat)) : Nat :=
  (bins.map (fun b => b.2 * avg_bin_value bin_width b.1)).sum

/-- The weight rule as the specification words it: `weight = center` if
`center > 0`, else `weight = bin_width / 4` (integer division). -/
def specWeight (bin_width center : Nat) : Nat :=
  if 0 < center then center else bin_width / 4

/-- Total weight as the specification predicts it:
`Σ count * specWeight` over the input bins. -/
def specWeightSum (bin_width : Nat) (bins : List (Nat × Nat)) : Nat :=
  (bins.map (fun b => b.2 * specWeight bin_width b.1)).sum

/-- The id-resolution formula as the specification words it:
`first_id + (draw − start_offset) mod count`. -/
def specSampleId (start_offset first_id count draw : Nat) : Nat :=
  first_id + (draw - start_offset) % count

/-- Reference construction of the cumulative intervals, carrying the interval
end explicitly: entry `(start, stop, first_id, count)` with
`stop = start + count * avg_bin_value`; bins with `count = 0` are skipped
and `start`, `next_id` advance exactly as in `from_bins`. -/
def refIntervals (bin_width : Nat) :
    List (Nat × Nat) → Nat → Nat → List (Nat × Nat × Nat × Nat)
  | [], _, _ => []
  | (bin, count) :: rest, start, next_id =>
    if count = 0 then refIntervals bin_width rest start next_id
    else
      (start, start + count * avg_bin_value bin_width bin, next_id, count) ::
        refIntervals bin_width rest (start + count * avg_bin_value bin_width bin)
          (next_id + count)

/-- Forget the interval ends, leaving the data the Rust map stores. -/
def refEntry (e : Nat × Nat × Nat × Nat) : Entry :=
  (e.1, e.2.2)

/-- The 19-bin reference histogram of the crate's doc example and test. -/
def referenceBins : List (Nat × Nat) :=
  [(0, 16724), (10, 16393), (20, 4601), (30, 1707), (40, 680), (50, 281),
   (60, 128), (70, 60), (80, 35), (90, 16), (100, 4), (110, 4), (120, 10),
   (130, 1), (140, 2), (160, 1), (210, 1), (250, 1), (290, 1)]

/-- Keys of the association list are pairwise strictly increasing (the
`BTreeMap` ordering invariant). -/
def SortedKeys (l : List Entry) : Prop :=
  List.Pairwise (fun a b : Entry => a.1 < b.1) l

/-! ## Lemmas about the map model -/

theorem mem_btInsert {e : Entry} {k : Nat} {v : Nat × Nat} {l : List Entry}
    (h : e ∈ btInsert k v l) : e = (k, v) ∨ e ∈ l := by
  induction l with
  | nil => simpa [btInsert] using h
  | cons a rest ih =>
    by_cases h1 : k < a.1
    · simpa [btInsert, h1] using h
    · by_cases h2 : k = a.1
      · rcases (by simpa [btInsert, h1, h2] using h : e = (k, v) ∨ e ∈ rest)
          with h3 | h3
        · exact Or.inl h3
        · exact Or.inr (List.mem_cons_of_mem _ h3)
      · rcases (by simpa [btInsert, h1, h2] using h :
            e = a ∨ e ∈ btInsert k v rest) with h3 | h3
        · exact Or.inr (by rw [h3]; exact List.mem_cons_self a rest)
        · rcases ih h3 with h4 | h4
          · exact Or.inl h4
          · exact Or.inr (List.mem_cons_of_mem _ h4)

theorem btInsert_self_mem (k : Nat) (v : Nat × Nat) (l : List Entry) :
    (k, v) ∈ btInsert k v l := by
  induction l with
  | nil => simp [btInsert]
  | cons a rest ih =>
    by_cases h1 : k < a.1
    · simp [btInsert, h1]
    · by_cases h2 : k = a.1
      · simp [btInsert, h1, h2]
      · simpa [btInsert, h1, h2] using Or.inr ih

theorem btInsert_key_mem {k0 : Nat} {v0 : Nat × Nat} {l : List Entry}
    (h : (k0, v0) ∈ l) (k : Nat) (v : Nat × Nat) :
    ∃ v1, (k0, v1) ∈ btInsert k v l := by
  induction l with
  | nil => cases h
  | cons a rest ih =>
    by_cases h1 : k < a.1
    · exact ⟨v0, by simpa [btInsert, h1] using Or.inr h⟩
    · by_cases h2 : k = a.1
      · rcases List.mem_cons.mp h with h3 | h3
        · refine ⟨v, ?_⟩
          have hk : k0 = k := by rw [h2]; exact congrArg Prod.fst h3
          simp [btInsert, h1, h2, hk]
        · exact ⟨v0, by simpa [btInsert, h1, h2] using Or.inr h3⟩
      · rcases List.mem_cons.mp h with h3 | h3
        · exact ⟨v0, by simpa [btInsert, h1, h2] using Or.inl h3⟩
        · rcases ih h3 with ⟨v1, hv1⟩
          exact ⟨v1, by simpa [btInsert, h1, h2] using Or.inr hv1⟩

theorem sorted_btInsert {l : List Entry} (hs : SortedKeys l) (k : Nat)
    (v : Nat × Nat) : SortedKeys (btInsert k v l) := by
  induction l with
  | nil => simp [btInsert, SortedKeys]
  | cons a rest ih =>
    rcases (List.pairwise_cons.mp hs) with ⟨ha, hrest⟩
    by_cases h1 : k < a.1
    · rw [show btInsert k v (a :: rest) = (k, v) :: a :: rest from by
        simp [btInsert, h1]]
      refine List.pairwise_cons.mpr ⟨?_, hs⟩
      intro b hb
      rcases List.mem_cons.mp hb with h2 | h2
      · rw [h2]; exact h1
      · exact lt_trans h1 (ha b h2)
    · by_cases h2 : k = a.1
      · rw [show btInsert k v (a :: rest) = (k, v) :: rest from by
          simp [btInsert, h1, h2]]
        refine List.pairwise_cons.mpr ⟨?_, hrest⟩
        intro b hb
        show k < b.1
        have := ha b hb
        omega
      · rw [show btInsert k v (a :: rest) = a :: btInsert k v rest from by
          simp [btInsert, h1, h2]]
        refine List.pairwise_cons.mpr ⟨?_, ih hrest⟩
        intro b hb
        rcases mem_btInsert hb with h4 | h4
        · rw [h4]
          show a.1 < k
          omega
        · exact ha b h4

theorem btInsert_append {l : List Entry} {k : Nat}
    (hk : ∀ e ∈ l, e.1 < k) (v : Nat × Nat) :
    btInsert k v l = l ++ [(k, v)] := by
  induction l with
  | nil => simp [btInsert]
  | cons a rest ih =>
    have h1 : ¬ k < a.1 := by
      have := hk a (List.mem_cons_self a rest)
      omega
    have h2 : ¬ k = a.1 := by
      have := hk a (List.mem_cons_self a rest)
      omega
    rw [show btInsert k v (a :: rest) = a :: btInsert k v rest from by
      simp [btInsert, h1, h2]]
    rw [ih (fun e he => hk e (List.mem_cons_of_mem _ he))]
    simp

theorem lookupLE_mem {d : Nat} {l : List Entry} {e : Entry}
    (h : lookupLE d l = some e) : e ∈ l ∧ e.1 ≤ d := by
  induction l with
  | nil => simp [lookupLE] at h
  | cons a rest ih =>
    rcases hr : lookupLE d rest with _ | r
    · by_cases h2 : a.1 ≤ d
      · have h3 : a = e := by simpa [lookupLE, hr, h2] using h
        subst h3
        exact ⟨List.mem_cons_self a rest, h2⟩
      · simp [lookupLE, hr, h2] at h
    · have : r = e := by simpa [lookupLE, hr] using h
      rcases ih (this ▸ hr) with ⟨hm, hle⟩
      exact ⟨List.mem_cons_of_mem _ hm, hle⟩

theorem lookupLE_isSome {d : Nat} {l : List Entry} {e0 : Entry}
    (h0 : e0 ∈ l) (hle : e0.1 ≤ d) : ∃ e, lookupLE d l = some e := by
  induction l with
  | nil => cases h0
  | cons a rest ih =>
    rcases hr : lookupLE d rest with _ | r
    · rcases List.mem_cons.mp h0 with h1 | h1
      · exact ⟨a, by simp [lookupLE, hr, h1 ▸ hle]⟩
      · rcases ih h1 with ⟨e, he⟩
        simp [hr] at he
    · exact ⟨r, by simp [lookupLE, hr]⟩

theorem lookupLE_none {d : Nat} {l : List Entry}
    (h : lookupLE d l = none) : ∀ e ∈ l, d < e.1 := by
  intro e he
  by_contra hlt
  have hle : e.1 ≤ d := by omega
  rcases lookupLE_isSome he hle with ⟨e1, he1⟩
  rw [h] at he1
  cases he1

theorem lookupLE_greatest {d : Nat} {l : List Entry} {e : Entry}
    (hs : SortedKeys l) (h : lookupLE d l = some e) :
    ∀ e1 ∈ l, e1.1 ≤ d → e1.1 ≤ e.1 := by
  induction l with
  | nil => simp [lookupLE] at h
  | cons a rest ih =>
    rcases (List.pairwise_cons.mp hs) with ⟨ha, hrest⟩
    intro e1 he1 hd
    rcases hr : lookupLE d rest with _ | r
    · by_cases h2 : a.1 ≤ d
      · have hae : a = e := by simpa [lookupLE, hr, h2] using h
        rcases List.mem_cons.mp he1 with h3 | h3
        · exact le_of_eq (congrArg Prod.fst (by rw [h3, hae]))
        · exact absurd hd (by simpa using lookupLE_none hr e1 h3)
      · simp [lookupLE, hr, h2] at h
    · have hre : r = e := by simpa [lookupLE, hr] using h
      rcases List.mem_cons.mp he1 with h3 | h3
      · have h4 : a.1 < e.1 := hre ▸ ha r (lookupLE_mem hr).1
        rw [h3]
        exact le_of_lt h4
      · exact ih hrest (hre ▸ hr) e1 h3 hd

/-! ## Invariants of the `from_bins` loop -/

theorem avg_bin_value_pos {w : Nat} (hw : 0 < w) (c : Nat) :
    0 < avg_bin_value w c := by
  unfold avg_bin_value
  by_cases hc : c = 0 <;> simp [hc] <;> omega

theorem fromBinsGo_end (w : Nat) (l : List (Nat × Nat)) :
    ∀ start nid bins,
      (fromBinsGo w l start nid bins).end_ = start + weightSum w l := by
  induction l with
  | nil => intro start nid bins; simp [fromBinsGo, weightSum]
  | cons hd tl ih =>
    intro start nid bins
    obtain ⟨c, n⟩ := hd
    by_cases hn : n = 0
    · rw [show fromBinsGo w ((c, n) :: tl) start nid bins
          = fromBinsGo w tl start nid bins from by simp [fromBinsGo, hn]]
      rw [ih start nid bins]
      simp [weightSum, hn]
    · rw [show fromBinsGo w ((c, n) :: tl) start nid bins
          = fromBinsGo w tl (start + n * avg_bin_value w c) (nid + n)
              (btInsert start (nid, n) bins) from by simp [fromBinsGo, hn]]
      rw [ih]
      simp [weightSum, Nat.add_assoc]

theorem fromBinsGo_next_id (w : Nat) (l : List (Nat × Nat)) :
    ∀ start nid bins,
      (fromBinsGo w l start nid bins).next_id = nid + countSum l := by
  induction l with
  | nil => intro start nid bins; simp [fromBinsGo, countSum]
  | cons hd tl ih =>
    intro start nid bins
    obtain ⟨c, n⟩ := hd
    by_cases hn : n = 0
    · rw [show fromBinsGo w ((c, n) :: tl) start nid bins
          = fromBinsGo w tl start nid bins from by simp [fromBinsGo, hn]]
      rw [ih start nid bins]
      simp [countSum, hn]
    · rw [show fromBinsGo w ((c, n) :: tl) start nid bins
          = fromBinsGo w tl (start + n * avg_bin_value w c) (nid + n)
              (btInsert start (nid, n) bins) from by simp [fromBinsGo, hn]]
      rw [ih]
      simp [countSum, Nat.add_assoc]

theorem fromBinsGo_sorted (w : Nat) (l : List (Nat × Nat)) :
    ∀ start nid bins, SortedKeys bins →
      SortedKeys (fromBinsGo w l start nid bins).bins := by
  induction l with
  | nil => intro start nid bins hs; simpa [fromBinsGo] using hs
  | cons hd tl ih =>
    intro start nid bins hs
    obtain ⟨c, n⟩ := hd
    by_cases hn : n = 0
    · rw [show fromBinsGo w ((c, n) :: tl) start nid bins
          = fromBinsGo w tl start nid bins from by simp [fromBinsGo, hn]]
      exact ih start nid bins hs
    · rw [show fromBinsGo w ((c, n) :: tl) start nid bins
          = fromBinsGo w tl (start + n * avg_bin_value w c) (nid + n)
              (btInsert start (nid, n) bins) from by simp [fromBinsGo, hn]]
      exact ih _ _ _ (sorted_btInsert hs start (nid, n))

theorem fromBinsGo_counts (w : Nat) (l : List (Nat × Nat)) :
    ∀ start nid bins, (∀ e ∈ bins, 0 < e.2.2) →
      ∀ e ∈ (fromBinsGo w l start nid bins).bins, 0 < e.2.2 := by
  induction l with
  | nil => intro start nid bins hb; simpa [fromBinsGo] using hb
  | cons hd tl ih =>
    intro start nid bins hb
    obtain ⟨c, n⟩ := hd
    by_cases hn : n = 0
    · rw [show fromBinsGo w ((c, n) :: tl) start nid bins
          = fromBinsGo w tl start nid bins from by simp [fromBinsGo, hn]]
      exact ih start nid bins hb
    · rw [show fromBinsGo w ((c, n) :: tl) start nid bins
          = fromBinsGo w tl (start + n * avg_bin_value w c) (nid + n)
              (btInsert start (nid, n) bins) from by simp [fromBinsGo, hn]]
      refine ih _ _ _ ?_
      intro e he
      rcases mem_btInsert he with h1 | h1
      · rw [h1]
        show 0 < n
        omega
      · exact hb e h1

theorem fromBinsGo_id_bound (w : Nat) (l : List (Nat × Nat)) :
    ∀ start nid bins, (∀ e ∈ bins, e.2.1 + e.2.2 ≤ nid) →
      ∀ e ∈ (fromBinsGo w l start nid bins).bins,
        e.2.1 + e.2.2 ≤ (fromBinsGo w l start nid bins).next_id := by
  induction l with
  | nil => intro start nid bins hb; simpa [fromBinsGo] using hb
  | cons hd tl ih =>
    intro start nid bins hb
    obtain ⟨c, n⟩ := hd
    by_cases hn : n = 0
    · rw [show fromBinsGo w ((c, n) :: tl) start nid bins
          = fromBinsGo w tl start nid bins from by simp [fromBinsGo, hn]]
      exact ih start nid bins hb
    · rw [show fromBinsGo w ((c, n) :: tl) start nid bins
          = fromBinsGo w tl (start + n * avg_bin_value w c) (nid + n)
              (btInsert start (nid, n) bins) from by simp [fromBinsGo, hn]]
      refine ih _ _ _ ?_
      intro e he
      rcases mem_btInsert he with h1 | h1
      · rw [h1]
      · have := hb e h1
        omega

theorem fromBinsGo_key0 (w : Nat) (l : List (Nat × Nat)) :
    ∀ start nid bins,
      ((∃ v, (0, v) ∈ bins) ∨ (start = 0 ∧ ∃ b ∈ l, 0 < b.2)) →
      ∃ v, (0, v) ∈ (fromBinsGo w l start nid bins).bins := by
  induction l with
  | nil =>
    intro start nid bins h
    rcases h with ⟨v, hv⟩ | ⟨_, b, hb, _⟩
    · exact ⟨v, by simpa [fromBinsGo] using hv⟩
    · cases hb
  | cons hd tl ih =>
    intro start nid bins h
    obtain ⟨c, n⟩ := hd
    by_cases hn : n = 0
    · rw [show fromBinsGo w ((c, n) :: tl) start nid bins
          = fromBinsGo w tl start nid bins from by simp [fromBinsGo, hn]]
      refine ih start nid bins ?_
      rcases h with h1 | ⟨hst, b, hb, hbpos⟩
      · exact Or.inl h1
      · rcases List.mem_cons.mp hb with h2 | h2
        · exact absurd hbpos (by rw [h2]; show ¬ 0 < n; omega)
        · exact Or.inr ⟨hst, b, h2, hbpos⟩
    · rw [show fromBinsGo w ((c, n) :: tl) start nid bins
          = fromBinsGo w tl (start + n * avg_bin_value w c) (nid + n)
              (btInsert start (nid, n) bins) from by simp [fromBinsGo, hn]]
      refine ih _ _ _ (Or.inl ?_)
      rcases h with ⟨v, hv⟩ | ⟨hst, _⟩
      · rcases btInsert_key_mem hv start (nid, n) with ⟨v1, hv1⟩
        exact ⟨v1, hv1⟩
      · subst hst
        exact ⟨(nid, n), btInsert_self_mem 0 (nid, n) bins⟩

theorem fromBinsGo_eq_ref {w : Nat} (hw : 0 < w) (l : List (Nat × Nat)) :
    ∀ start nid bins, SortedKeys bins → (∀ e ∈ bins, e.1 < start) →
      (fromBinsGo w l start nid bins).bins
        = bins ++ (refIntervals w l start nid).map refEntry := by
  induction l with
  | nil => intro start nid bins _ _; simp [fromBinsGo, refIntervals]
  | cons hd tl ih =>
    intro start nid bins hs hb
    obtain ⟨c, n⟩ := hd
    by_cases hn : n = 0
    · rw [show fromBinsGo w ((c, n) :: tl) start nid bins
          = fromBinsGo w tl start nid bins from by simp [fromBinsGo, hn]]
      rw [show refIntervals w ((c, n) :: tl) start nid
          = refIntervals w tl start nid from by simp [refIntervals, hn]]
      exact ih start nid bins hs hb
    · have hpos : 0 < n * avg_bin_value w c :=
        Nat.mul_pos (Nat.pos_of_ne_zero hn) (avg_bin_value_pos hw c)
      rw [show fromBinsGo w ((c, n) :: tl) start nid bins
          = fromBinsGo w tl (start + n * avg_bin_value w c) (nid + n)
              (btInsert start (nid, n) bins) from by simp [fromBinsGo, hn]]
      rw [show refIntervals w ((c, n) :: tl) start nid
          = (start, start + n * avg_bin_value w c, nid, n)
              :: refIntervals w tl (start + n * avg_bin_value w c) (nid + n)
            from by simp [refIntervals, hn]]
      rw [btInsert_append hb (nid, n)]
      have hs2 : SortedKeys (bins ++ [(start, nid, n)]) := by
        refine List.pairwise_append.mpr ⟨hs, ?_, ?_⟩
        · simp [SortedKeys]
        · intro a ha b hbm
          have h1 := hb a ha
          have h2 : b = (start, nid, n) := by simpa using hbm
          rw [h2]
          exact h1
      have hb2 : ∀ e ∈ bins ++ [(start, nid, n)],
          e.1 < start + n * avg_bin_value w c := by
        intro e he
        rcases List.mem_append.mp he with h1 | h1
        · have := hb e h1
          omega
        · have h2 : e = (start, nid, n) := by simpa using h1
          rw [h2]
          show start < start + n * avg_bin_value w c
          omega
      rw [ih _ _ _ hs2 hb2]
      simp [refEntry]

/-! ## Facts about `from_bins` and `ind_sample` -/

theorem from_bins_end (bins : List (Nat × Nat)) (w : Nat) :
    (from_bins bins w).end_ = weightSum w bins := by
  rw [from_bins, fromBinsGo_end]
  omega

theorem from_bins_nvalues (bins : List (Nat × Nat)) (w : Nat) :
    (from_bins bins w).nvalues = countSum bins := by
  show (fromBinsGo w bins 0 0 []).next_id = countSum bins
  rw [fromBinsGo_next_id]
  omega

theorem from_bins_sorted (bins : List (Nat × Nat)) (w : Nat) :
    SortedKeys (from_bins bins w).bins :=
  fromBinsGo_sorted w bins 0 0 [] (by simp [SortedKeys])

theorem from_bins_counts (bins : List (Nat × Nat)) (w : Nat) :
    ∀ e ∈ (from_bins bins w).bins, 0 < e.2.2 :=
  fromBinsGo_counts w bins 0 0 [] (by simp)

theorem from_bins_id_bound (bins : List (Nat × Nat)) (w : Nat) :
    ∀ e ∈ (from_bins bins w).bins,
      e.2.1 + e.2.2 ≤ (from_bins bins w).nvalues :=
  fromBinsGo_id_bound w bins 0 0 [] (by simp)

theorem from_bins_key0 {bins : List (Nat × Nat)} (w : Nat)
    (h : ∃ b ∈ bins, 0 < b.2) :
    ∃ v, (0, v) ∈ (from_bins bins w).bins :=
  fromBinsGo_key0 w bins 0 0 [] (Or.inr ⟨rfl, h⟩)

theorem from_bins_bins_eq (bins : List (Nat × Nat)) {w : Nat} (hw : 0 < w) :
    (from_bins bins w).bins = (refIntervals w bins 0 0).map refEntry := by
  have h := fromBinsGo_eq_ref hw bins 0 0 [] (by simp [SortedKeys]) (by simp)
  simpa [from_bins] using h

theorem ind_sample_ok {bins : List (Nat × Nat)} {w d : Nat}
    (hne : ∃ b ∈ bins, 0 < b.2) (hd : d < (from_bins bins w).end_) :
    ∃ e : Entry, lookupLE d (from_bins bins w).bins = some e ∧
      e ∈ (from_bins bins w).bins ∧ e.1 ≤ d ∧ 0 < e.2.2 ∧
      ind_sample (from_bins bins w) d = Except.ok (e.2.1 + d % e.2.2) := by
  rcases from_bins_key0 w hne with ⟨v, hv⟩
  rcases lookupLE_isSome hv (Nat.zero_le d) with ⟨e, he⟩
  rcases lookupLE_mem he with ⟨hmem, hle⟩
  have hcount := from_bins_counts bins w e hmem
  refine ⟨e, he, hmem, hle, hcount, ?_⟩
  obtain ⟨k, fid, n⟩ := e
  have hn : n ≠ 0 := by
    have h0 : 0 < n := hcount
    omega
  simp [ind_sample, hd, he, hn]

/-! ## Characterization of the reference interval list -/

theorem refIntervals_head (w : Nat) (l : List (Nat × Nat)) :
    ∀ s0 nid e, (refIntervals w l s0 nid).head? = some e →
      e.1 = s0 ∧ e.2.2.1 = nid := by
  induction l with
  | nil => intro s0 nid e h; simp [refIntervals] at h
  | cons hd tl ih =>
    intro s0 nid e h
    obtain ⟨c, n⟩ := hd
    by_cases hn : n = 0
    · exact ih s0 nid e (by simpa [refIntervals, hn] using h)
    · have h2 : (s0, s0 + n * avg_bin_value w c, nid, n) = e := by
        simpa [refIntervals, hn] using h
      rw [← h2]
      exact ⟨rfl, rfl⟩

theorem refIntervals_chain_stop (w : Nat) (l : List (Nat × Nat)) :
    ∀ s0 nid,
      List.Chain' (fun a b => a.2.1 = b.1) (refIntervals w l s0 nid) := by
  induction l with
  | nil => intro s0 nid; simp [refIntervals]
  | cons hd tl ih =>
    intro s0 nid
    obtain ⟨c, n⟩ := hd
    by_cases hn : n = 0
    · rw [show refIntervals w ((c, n) :: tl) s0 nid
          = refIntervals w tl s0 nid from by simp [refIntervals, hn]]
      exact ih s0 nid
    · rw [show refIntervals w ((c, n) :: tl) s0 nid
          = (s0, s0 + n * avg_bin_value w c, nid, n)
              :: refIntervals w tl (s0 + n * avg_bin_value w c) (nid + n)
            from by simp [refIntervals, hn]]
      refine List.chain'_cons'.mpr ⟨?_, ih _ _⟩
      intro b hb
      have hh := refIntervals_head w tl _ _ b (Option.mem_def.mp hb)
      exact hh.1.symm

theorem refIntervals_chain_id (w : Nat) (l : List (Nat × Nat)) :
    ∀ s0 nid,
      List.Chain' (fun a b => b.2.2.1 = a.2.2.1 + a.2.2.2)
        (refIntervals w l s0 nid) := by
  induction l with
  | nil => intro s0 nid; simp [refIntervals]
  | cons hd tl ih =>
    intro s0 nid
    obtain ⟨c, n⟩ := hd
    by_cases hn : n = 0
    · rw [show refIntervals w ((c, n) :: tl) s0 nid
          = refIntervals w tl s0 nid from by simp [refIntervals, hn]]
      exact ih s0 nid
    · rw [show refIntervals w ((c, n) :: tl) s0 nid
          = (s0, s0 + n * avg_bin_value w c, nid, n)
              :: refIntervals w tl (s0 + n * avg_bin_value w c) (nid + n)
            from by simp [refIntervals, hn]]
      refine List.chain'_cons'.mpr ⟨?_, ih _ _⟩
      intro b hb
      have hh := refIntervals_head w tl _ _ b (Option.mem_def.mp hb)
      exact hh.2

theorem refIntervals_lastD_stop (w : Nat) (l : List (Nat × Nat)) :
    ∀ s0 nid d, d.2.1 = s0 →
      ((refIntervals w l s0 nid).getLastD d).2.1 = s0 + weightSum w l := by
  induction l with
  | nil => intro s0 nid d hd; simpa [refIntervals, weightSum] using hd
  | cons hd tl ih =>
    intro s0 nid d hdd
    obtain ⟨c, n⟩ := hd
    by_cases hn : n = 0
    · rw [show refIntervals w ((c, n) :: tl) s0 nid
          = refIntervals w tl s0 nid from by simp [refIntervals, hn]]
      rw [ih s0 nid d hdd]
      simp [weightSum, hn]
    · rw [show refIntervals w ((c, n) :: tl) s0 nid
          = (s0, s0 + n * avg_bin_value w c, nid, n)
              :: refIntervals w tl (s0 + n * avg_bin_value w c) (nid + n)
            from by simp [refIntervals, hn]]
      rw [List.getLastD_cons]
      rw [ih (s0 + n * avg_bin_value w c) (nid + n) _ rfl]
      simp [weightSum, Nat.add_assoc]

theorem refIntervals_ids (w : Nat) (l : List (Nat × Nat)) :
    ∀ s0 nid,
      ((refIntervals w l s0 nid).map
        (fun e => List.range' e.2.2.1 e.2.2.2)).flatten
        = List.range' nid (countSum l) := by
  induction l with
  | nil => intro s0 nid; simp [refIntervals, countSum]
  | cons hd tl ih =>
    intro s0 nid
    obtain ⟨c, n⟩ := hd
    by_cases hn : n = 0
    · rw [show refIntervals w ((c, n) :: tl) s0 nid
          = refIntervals w tl s0 nid from by simp [refIntervals, hn]]
      rw [ih s0 nid]
      simp [countSum, hn]
    · rw [show refIntervals w ((c, n) :: tl) s0 nid
          = (s0, s0 + n * avg_bin_value w c, nid, n)
              :: refIntervals w tl (s0 + n * avg_bin_value w c) (nid + n)
            from by simp [refIntervals, hn]]
      simp only [List.map_cons, List.flatten_cons]
      rw [ih _ (nid + n)]
      rw [show countSum ((c, n) :: tl) = n + countSum tl from by simp [countSum]]
      rw [List.range'_append_1 nid n (countSum tl), Nat.add_comm]

theorem refIntervals_stop_mem (w : Nat) (l : List (Nat × Nat)) :
    ∀ s0 nid, ∀ e ∈ refIntervals w l s0 nid,
      ∃ c, (c, e.2.2.2) ∈ l ∧ e.2.1 = e.1 + e.2.2.2 * avg_bin_value w c := by
  induction l with
  | nil => intro s0 nid e he; simp [refIntervals] at he
  | cons hd tl ih =>
    intro s0 nid e he
    obtain ⟨c, n⟩ := hd
    by_cases hn : n = 0
    · rcases ih s0 nid e (by simpa [refIntervals, hn] using he) with ⟨c1, hc1, hs⟩
      exact ⟨c1, List.mem_cons_of_mem _ hc1, hs⟩
    · rcases (by simpa [refIntervals, hn] using he :
          e = (s0, s0 + n * avg_bin_value w c, nid, n)
            ∨ e ∈ refIntervals w tl (s0 + n * avg_bin_value w c) (nid + n))
        with h1 | h1
      · refine ⟨c, ?_, ?_⟩
        · rw [h1]
          exact List.mem_cons_self _ _
        · rw [h1]
      · rcases ih _ _ e h1 with ⟨c1, hc1, hs⟩
        exact ⟨c1, List.mem_cons_of_mem _ hc1, hs⟩

/-! ## Claims -/

/-- C1, counterexample: the claim predicts `weight = center` for a bin with
`center > 0` and `weight = bin_width / 4` for the zero bin, so the histogram
`[(10, 1)]` with `bin_width = 10` would have `total_weight = 10` and
`[(0, 1)]` would have `total_weight = 2`; the code's `from_bins` instead
produces `end = 40` and `end = 10` (it uses `4 * center`, resp. `bin_width`). -/
theorem C1_counterexample :
    (from_bins [(10, 1)] 10).end_ = 40
    ∧ specWeightSum 10 [(10, 1)] = 10
    ∧ (from_bins [(0, 1)] 10).end_ = 10
    ∧ specWeightSum 10 [(0, 1)] = 2
    ∧ (40 : Nat) ≠ 10 ∧ (10 : Nat) ≠ 2 := by
  refine ⟨by decide, by decide, by decide, by decide, by decide, by decide⟩

/-- C1 (amended): in the index built by `Sampler::from_bins`, the weight used
for a non-empty bin is `avg_bin_value = bin_width` when `center = 0` and
`4 * center` otherwise (four times the spec's idealized weights, computed
exactly, with no integer division); each non-empty bin gets the interval
`[start, start + count * avg_bin_value)` with `start` advancing by
`count * avg_bin_value` (the shape of `refIntervals`), and `total_weight`
equals the sum of `count * avg_bin_value` over all bins. -/
theorem C1_amended (bins : List (Nat × Nat)) (w : Nat) :
    (from_bins bins w).end_ = weightSum w bins
    ∧ (0 < w →
        (from_bins bins w).bins = (refIntervals w bins 0 0).map refEntry) :=
  ⟨from_bins_end bins w, fun hw => from_bins_bins_eq bins hw⟩

/-- C1 witness: the amended claim applied to `[(0, 2), (10, 3)]` with
`bin_width = 10`. -/
theorem C1_amended_witness :
    (0 : Nat) < 10
    ∧ (from_bins [(0, 2), (10, 3)] 10).end_ = weightSum 10 [(0, 2), (10, 3)]
    ∧ (from_bins [(0, 2), (10, 3)] 10).bins
        = (refIntervals 10 [(0, 2), (10, 3)] 0 0).map refEntry :=
  ⟨by decide, (C1_amended [(0, 2), (10, 3)] 10).1,
    (C1_amended [(0, 2), (10, 3)] 10).2 (by decide)⟩

/-- C2, counterexample: for the sampler built from `[(0, 2), (10, 3)]` with
`bin_width = 10`, the draw `21` falls in the interval with
`start_offset = 20`, `first_id = 2`, `count = 3`; the spec formula
`first_id + (draw − start_offset) mod count` yields `3`, but the code
computes `first_id + (draw mod count)` (it does not subtract the start
offset) and returns `2`. -/
theorem C2_counterexample :
    lookupLE 21 (from_bins [(0, 2), (10, 3)] 10).bins = some (20, 2, 3)
    ∧ ind_sample (from_bins [(0, 2), (10, 3)] 10) 21 = Except.ok 2
    ∧ specSampleId 20 2 3 21 = 3
    ∧ (2 : Nat) ≠ 3 := by
  refine ⟨by decide, by decide, by decide, by decide⟩

/-- C2 (amended): for every sampler with at least one non-empty bin and every
draw in `[0, total_weight)`, sampling locates the interval with the greatest
`start_offset ≤ draw` and returns `first_id + (draw mod count)` (the draw is
reduced modulo the count without first subtracting the start offset). -/
theorem C2_amended (bins : List (Nat × Nat)) (w d : Nat)
    (hne : ∃ b ∈ bins, 0 < b.2) (hd : d < (from_bins bins w).end_) :
    ∃ e : Entry, lookupLE d (from_bins bins w).bins = some e
      ∧ e ∈ (from_bins bins w).bins ∧ e.1 ≤ d
      ∧ (∀ e1 ∈ (from_bins bins w).bins, e1.1 ≤ d → e1.1 ≤ e.1)
      ∧ ind_sample (from_bins bins w) d = Except.ok (e.2.1 + d % e.2.2) := by
  rcases ind_sample_ok hne hd with ⟨e, he, hmem, hle, _, hok⟩
  exact ⟨e, he, hmem, hle, lookupLE_greatest (from_bins_sorted bins w) he, hok⟩

/-- C2 witness: the amended claim applied to `[(0, 2), (10, 3)]`,
`bin_width = 10`, draw `21`. -/
theorem C2_amended_witness :
    ∃ e : Entry, lookupLE 21 (from_bins [(0, 2), (10, 3)] 10).bins = some e
      ∧ e ∈ (from_bins [(0, 2), (10, 3)] 10).bins ∧ e.1 ≤ 21
      ∧ (∀ e1 ∈ (from_bins [(0, 2), (10, 3)] 10).bins, e1.1 ≤ 21 → e1.1 ≤ e.1)
      ∧ ind_sample (from_bins [(0, 2), (10, 3)] 10) 21
          = Except.ok (e.2.1 + 21 % e.2.2) :=
  C2_amended [(0, 2), (10, 3)] 10 21 ⟨(0, 2), by decide, by decide⟩ (by decide)

/-- C3: for every sampler built with `bin_width > 0` from at least one bin
with `count > 0`, and every draw `d < total_weight`, sampling succeeds and
the returned id is `< nvalues()`. -/
theorem C3_sample_in_range (bins : List (Nat × Nat)) (w d : Nat)
    (_hw : 0 < w) (hne : ∃ b ∈ bins, 0 < b.2)
    (hd : d < (from_bins bins w).end_) :
    ∃ id, ind_sample (from_bins bins w) d = Except.ok id
      ∧ id < (from_bins bins w).nvalues := by
  rcases ind_sample_ok hne hd with ⟨e, _, hmem, _, hpos, hok⟩
  refine ⟨e.2.1 + d % e.2.2, hok, ?_⟩
  have h1 := from_bins_id_bound bins w e hmem
  have h2 : d % e.2.2 < e.2.2 := Nat.mod_lt d hpos
  omega

/-- C3 witness: the theorem applied to `[(0, 2), (10, 3)]`, `bin_width = 10`,
draw `21`. -/
theorem C3_sample_in_range_witness :
    ∃ id, ind_sample (from_bins [(0, 2), (10, 3)] 10) 21 = Except.ok id
      ∧ id < (from_bins [(0, 2), (10, 3)] 10).nvalues :=
  C3_sample_in_range [(0, 2), (10, 3)] 10 21 (by decide)
    ⟨(0, 2), by decide, by decide⟩ (by decide)

/-- C4, counterexample: built from bins that all have `count = 0`,
construction succeeds, but the first sampling attempt fails with the
`assert!(low < high)` panic inside `rand`'s `gen_range` (modelled as
`SampleError.genRangeAssert`) — a panic from an internal assertion of the
random library, not an explicit "empty distribution" precondition error. -/
theorem C4_counterexample :
    ind_sample (from_bins [(0, 0), (5, 0)] 10) 0
      = Except.error SampleError.genRangeAssert := by decide

/-- C4 (amended): when every input bin has `count = 0` (including the empty
sequence), construction succeeds with `total_weight = 0` and every call to
`ind_sample` fails via the `assert!(low < high)` panic raised inside `rand`'s
`gen_range` when `self.end == 0`; there is no divide-by-zero and no unbounded
loop, but the failure is the random library's assertion panic, not an
explicit distribution-specific error. -/
theorem C4_amended (bins : List (Nat × Nat)) (w d : Nat)
    (hz : ∀ b ∈ bins, b.2 = 0) :
    (from_bins bins w).end_ = 0
    ∧ ind_sample (from_bins bins w) d
        = Except.error SampleError.genRangeAssert := by
  have hend : (from_bins bins w).end_ = 0 := by
    rw [from_bins_end, weightSum]
    refine List.sum_eq_zero ?_
    intro x hx
    rcases List.mem_map.mp hx with ⟨b, hb, hxe⟩
    rw [← hxe, hz b hb]
    simp
  refine ⟨hend, ?_⟩
  simp [ind_sample, hend]

/-- C4 witness: the amended claim applied to `[(0, 0), (5, 0)]`,
`bin_width = 10`, draw `7`. -/
theorem C4_amended_witness :
    (∀ b ∈ [((0 : Nat), (0 : Nat)), (5, 0)], b.2 = 0)
    ∧ (from_bins [(0, 0), (5, 0)] 10).end_ = 0
    ∧ ind_sample (from_bins [(0, 0), (5, 0)] 10) 7
        = Except.error SampleError.genRangeAssert :=
  ⟨by decide, C4_amended [(0, 0), (5, 0)] 10 7 (by decide)⟩

/-- C5, counterexample: `from_bins` does not validate `bin_width`. With
`bin_width = 0` and bins `[(0, 5), (10, 3)]`, construction succeeds and
sampling succeeds (draw `0` returns id `5`), yet the sampler is silently
degenerate: `nvalues = 8` but no draw in `[0, end) = [0, 120)` can ever
return id `0` (the zero-center bin got weight `0` and its map entry was
overwritten), and draws `≥ 120` error — so ids `0..4` are unreachable and
no explicit construction or sampling error is ever reported. -/
theorem C5_counterexample :
    (from_bins [(0, 5), (10, 3)] 0).nvalues = 8
    ∧ (from_bins [(0, 5), (10, 3)] 0).end_ = 120
    ∧ ind_sample (from_bins [(0, 5), (10, 3)] 0) 0 = Except.ok 5
    ∧ ((List.range 120).all
        (fun d => decide
          (ind_sample (from_bins [(0, 5), (10, 3)] 0) d ≠ Except.ok 0))) = true
    ∧ ind_sample (from_bins [(0, 5), (10, 3)] 0) 120
        = Except.error SampleError.genRangeAssert := by
  refine ⟨by decide, by decide, by decide, by decide, by decide⟩

/-- C5 (amended): `from_bins` performs no validation of `bin_width`: with
`bin_width = 0` construction still succeeds and returns a sampler with
`nvalues` equal to the sum of the counts and `end` equal to
`Σ count * avg_bin_value 0 center`, where a zero-center bin has
`avg_bin_value 0 0 = 0` — a silently degenerate sampler (the zero-center
bin's ids can never be drawn), not an explicit construction or sampling
error. -/
theorem C5_amended (bins : List (Nat × Nat)) :
    avg_bin_value 0 0 = 0
    ∧ (from_bins bins 0).nvalues = countSum bins
    ∧ (from_bins bins 0).end_ = weightSum 0 bins :=
  ⟨rfl, from_bins_nvalues bins 0, from_bins_end bins 0⟩

/-- C6: for every input bin sequence and every `bin_width`, `nvalues()` of
the constructed sampler equals the sum of the `count` fields of all input
bins; in particular, for the 19-bin reference histogram with `bin_width = 10`
it equals `40650`. -/
theorem C6_nvalues (bins : List (Nat × Nat)) (w : Nat) :
    (from_bins bins w).nvalues = countSum bins
    ∧ (from_bins referenceBins 10).nvalues = 40650 :=
  ⟨from_bins_nvalues bins w, by decide⟩

/-- C7: for every sampler built with `bin_width > 0`: the stored map equals
the reference interval list; its start offsets are strictly increasing; the
intervals tile the weight space (each interval's stop is the next one's
start); every interval's stop is its start plus `count * avg_bin_value` of
its source bin; the last interval's stop equals `total_weight`; and the id
ranges, concatenated in input-bin order, are exactly `[0, nvalues)` with no
gap or reuse. -/
theorem C7_invariants (bins : List (Nat × Nat)) (w : Nat) (hw : 0 < w) :
    (from_bins bins w).bins = (refIntervals w bins 0 0).map refEntry
    ∧ List.Chain' (fun a b : Entry => a.1 < b.1) (from_bins bins w).bins
    ∧ List.Chain' (fun a b => a.2.1 = b.1) (refIntervals w bins 0 0)
    ∧ (∀ e ∈ refIntervals w bins 0 0,
        ∃ c, (c, e.2.2.2) ∈ bins ∧ e.2.1 = e.1 + e.2.2.2 * avg_bin_value w c)
    ∧ ((refIntervals w bins 0 0).getLastD (0, 0, 0, 0)).2.1
        = (from_bins bins w).end_
    ∧ ((refIntervals w bins 0 0).map
        (fun e => List.range' e.2.2.1 e.2.2.2)).flatten
        = List.range (from_bins bins w).nvalues := by
  refine ⟨from_bins_bins_eq bins hw, (from_bins_sorted bins w).chain',
    refIntervals_chain_stop w bins 0 0, refIntervals_stop_mem w bins 0 0,
    ?_, ?_⟩
  · rw [refIntervals_lastD_stop w bins 0 0 (0, 0, 0, 0) rfl, from_bins_end]
    omega
  · rw [refIntervals_ids w bins 0 0, from_bins_nvalues, List.range_eq_range']

/-- C7 witness: the invariants applied to `[(0, 2), (10, 3)]` with
`bin_width = 10`. -/
theorem C7_invariants_witness :
    (0 : Nat) < 10
    ∧ ((from_bins [(0, 2), (10, 3)] 10).bins
          = (refIntervals 10 [(0, 2), (10, 3)] 0 0).map refEntry
      ∧ List.Chain' (fun a b : Entry => a.1 < b.1)
          (from_bins [(0, 2), (10, 3)] 10).bins
      ∧ List.Chain' (fun a b => a.2.1 = b.1) (refIntervals 10 [(0, 2), (10, 3)] 0 0)
      ∧ (∀ e ∈ refIntervals 10 [(0, 2), (10, 3)] 0 0,
          ∃ c, (c, e.2.2.2) ∈ [((0 : Nat), (2 : Nat)), (10, 3)]
            ∧ e.2.1 = e.1 + e.2.2.2 * avg_bin_value 10 c)
      ∧ ((refIntervals 10 [(0, 2), (10, 3)] 0 0).getLastD (0, 0, 0, 0)).2.1
          = (from_bins [(0, 2), (10, 3)] 10).end_
      ∧ ((refIntervals 10 [(0, 2), (10, 3)] 0 0).map
          (fun e => List.range' e.2.2.1 e.2.2.2)).flatten
          = List.range (from_bins [(0, 2), (10, 3)] 10).nvalues) :=
  ⟨by decide, C7_invariants [(0, 2), (10, 3)] 10 (by decide)⟩

/-- C8: sampling is deterministic: identical bin sequences, identical bin
widths and identical draw sequences produce identical id sequences (both the
index construction and the per-draw lookup are pure functions of their
inputs). -/
theorem C8_deterministic (bins1 bins2 : List (Nat × Nat)) (w1 w2 : Nat)
    (draws1 draws2 : List Nat) (hb : bins1 = bins2) (hw : w1 = w2)
    (hd : draws1 = draws2) :
    sampleSeq (from_bins bins1 w1) draws1
      = sampleSeq (from_bins bins2 w2) draws2 := by
  rw [hb, hw, hd]

/-- C8 witness: two runs on the reference inputs with the draw sequence
`[0, 21, 139]`. -/
theorem C8_deterministic_witness :
    ([(0, 2), (10, 3)] : List (Nat × Nat)) = [(0, 2), (10, 3)]
    ∧ (10 : Nat) = 10
    ∧ ([0, 21, 139] : List Nat) = [0, 21, 139]
    ∧ sampleSeq (from_bins [(0, 2), (10, 3)] 10) [0, 21, 139]
        = sampleSeq (from_bins [(0, 2), (10, 3)] 10) [0, 21, 139] :=
  ⟨rfl, rfl, rfl,
    C8_deterministic [(0, 2), (10, 3)] [(0, 2), (10, 3)] 10 10
      [0, 21, 139] [0, 21, 139] rfl rfl rfl⟩

/-- C9 (implicit): for every sampler built from at least one bin with
`count > 0`, the index contains an interval with `start_offset = 0`, every
stored interval count is positive, and for every draw `d < total_weight` the
lookup succeeds and `ind_sample` returns `first_id + d % count` — the
`.unwrap()` never panics and the `%` never divides by zero. -/
theorem C9_lookup_total (bins : List (Nat × Nat)) (w : Nat)
    (hne : ∃ b ∈ bins, 0 < b.2) :
    (∃ v, (0, v) ∈ (from_bins bins w).bins)
    ∧ (∀ e ∈ (from_bins bins w).bins, 0 < e.2.2)
    ∧ (∀ d, d < (from_bins bins w).end_ →
        ∃ e : Entry, lookupLE d (from_bins bins w).bins = some e
          ∧ ind_sample (from_bins bins w) d = Except.ok (e.2.1 + d % e.2.2)) := by
  refine ⟨from_bins_key0 w hne, from_bins_counts bins w, ?_⟩
  intro d hd
  rcases ind_sample_ok hne hd with ⟨e, he, _, _, _, hok⟩
  exact ⟨e, he, hok⟩

/-- C9 witness: the theorem applied to `[(0, 2), (10, 3)]`,
`bin_width = 10`, instantiated with draw `21`. -/
theorem C9_lookup_total_witness :
    (∃ b ∈ [((0 : Nat), (2 : Nat)), (10, 3)], 0 < b.2)
    ∧ ∃ e : Entry, lookupLE 21 (from_bins [(0, 2), (10, 3)] 10).bins = some e
        ∧ ind_sample (from_bins [(0, 2), (10, 3)] 10) 21
            = Except.ok (e.2.1 + 21 % e.2.2) :=
  ⟨⟨(0, 2), by decide, by decide⟩,
    (C9_lookup_total [(0, 2), (10, 3)] 10
      ⟨(0, 2), by decide, by decide⟩).2.2 21 (by decide)⟩

/-- C10 (implicit): `from_bins` accepts duplicate (and arbitrary-order) bin
centers without error when `bin_width > 0`: each occurrence of a center with
positive count gets its own interval and its own contiguous block of fresh
ids, and the pair `(c, n1), (c, n2)` yields the same total weight and value
count as the merged bin `(c, n1 + n2)`; any two-bin sequence, ordered or
not, gets `nvalues = n3 + n4`. -/
theorem C10_duplicate_centers (w c n1 n2 : Nat) (hw : 0 < w)
    (h1 : 0 < n1) (h2 : 0 < n2) :
    (from_bins [(c, n1), (c, n2)] w).bins
      = [(0, 0, n1), (n1 * avg_bin_value w c, n1, n2)]
    ∧ (from_bins [(c, n1), (c, n2)] w).end_ = (from_bins [(c, n1 + n2)] w).end_
    ∧ (from_bins [(c, n1), (c, n2)] w).nvalues
        = (from_bins [(c, n1 + n2)] w).nvalues
    ∧ (∀ c3 c4 n3 n4 : Nat,
        (from_bins [(c3, n3), (c4, n4)] w).nvalues = n3 + n4) := by
  have hn1 : n1 ≠ 0 := by omega
  have hn2 : n2 ≠ 0 := by omega
  have hpos : 0 < n1 * avg_bin_value w c :=
    Nat.mul_pos h1 (avg_bin_value_pos hw c)
  have hne0 : n1 * avg_bin_value w c ≠ 0 := Nat.pos_iff_ne_zero.mp hpos
  refine ⟨?_, ?_, ?_, ?_⟩
  · show (fromBinsGo w [(c, n1), (c, n2)] 0 0 []).bins = _
    simp [fromBinsGo, hn1, hn2, btInsert, hne0]
  · rw [from_bins_end, from_bins_end]
    simp [weightSum, Nat.add_mul]
  · rw [from_bins_nvalues, from_bins_nvalues]
    simp [countSum]
  · intro c3 c4 n3 n4
    rw [from_bins_nvalues]
    simp [countSum]

/-- C10 witness: the theorem applied to `c = 7`, `n1 = 1`, `n2 = 2`,
`bin_width = 10`. -/
theorem C10_duplicate_centers_witness :
    (from_bins [(7, 1), (7, 2)] 10).bins
      = [(0, 0, 1), (1 * avg_bin_value 10 7, 1, 2)]
    ∧ (from_bins [(7, 1), (7, 2)] 10).end_ = (from_bins [(7, 1 + 2)] 10).end_
    ∧ (from_bins [(7, 1), (7, 2)] 10).nvalues
        = (from_bins [(7, 1 + 2)] 10).nvalues
    ∧ (∀ c3 c4 n3 n4 : Nat,
        (from_bins [(c3, n3), (c4, n4)] 10).nvalues = n3 + n4) :=
  C10_duplicate_centers 10 7 1 2 (by decide) (by decide) (by decide)

end HistogramSampler
